import Mathlib

/-!
The larg4 `ParticleListActionService`: genealogy and retention bookkeeping.

A shallow embedding of `larg4/pluginActions/ParticleListAction_service.h`.

* The data members of the service and the nested `ParticleInfo_t` (with its
  inline member functions), `ParticleFilter`, `GetCurrentTrackID`,
  `ResetTrackIDOffset` and `GetPrimaryTruthMap` are translated from the header.
* The header only declares `GetParentage`, `GetPrimaryTruthIndex` and the
  tracking hooks; their bodies live in a translation unit that is not part of
  the sources at hand.  Those operations are modelled from the written
  specification, and every such definition says so in its doc comment.

Conventions: a C++ pointer is an `Option` (`nullptr` is `none`), `int` is `Int`,
`std::size_t` is `Nat`, a `std::map<int, V>` is an association list
`List (Int × V)` whose head is the entry registered last.
-/

namespace larg4

/-! ## Types the header takes from other packages -/

/-- Index type `simb::GeneratedParticleIndex_t` (a `std::size_t`). -/
abbrev GeneratedParticleIndex_t := Nat

/-- Modelled from the spec: `simb::NoGeneratedParticleIndex` is declared in
nusimdata's `simb.h`, which is not among the sources; it is the "no index"
sentinel of the data model, the largest value of the index type. -/
def NoGeneratedParticleIndex : GeneratedParticleIndex_t := 2 ^ 64 - 1

/-- Modelled from the spec: `simb::isGeneratedParticleIndex` is declared in
nusimdata's `simb.h`, which is not among the sources; an index is a
generator-record index when it is not the "no index" sentinel. -/
def isGeneratedParticleIndex (index : GeneratedParticleIndex_t) : Bool :=
  index != NoGeneratedParticleIndex

/-- A space-time position or four-momentum (`TLorentzVector`), components in
integral multiples of a fixed unit. -/
structure TLorentzVector where
  x : Int
  y : Int
  z : Int
  t : Int
deriving DecidableEq

/-- One stored trajectory sample: pose, momentum and originating-process label. -/
structure TrajectoryPoint where
  position : TLorentzVector
  momentum : TLorentzVector
  process : String
deriving DecidableEq

/-- Modelled from the spec: `simb::MCParticle` is declared in nusimdata, which
is not among the sources.  The fields are those of the data model's Particle:
track identifier, parent track identifier (0 for primaries), species code,
initial energy (integral multiples of a fixed unit), the EM-shower-daughter
flag set by the caller, and the ordered trajectory samples. -/
structure MCParticle where
  trackId : Int
  mother : Int
  pdgCode : Int
  initialEnergy : Int
  emShowerDaughter : Bool
  trajectory : List TrajectoryPoint
deriving DecidableEq

/-- Modelled from the spec: `PositionInVolumeFilter` is declared in larsim's
`ParticleFilters.h`, which is not among the sources; the engine consumes it as
one pure "volume membership" predicate on positions. -/
abbrev PositionInVolumeFilter := TLorentzVector → Bool

/-! ## `ParticleInfo_t` (header lines 53-78) -/

/-- The nested struct `ParticleInfo_t` with its default member initialisers. -/
structure ParticleInfo_t where
  /-- Field `particle`, a `simb::MCParticle*`; `nullptr` is `none`. -/
  particle : Option MCParticle := none
  /-- Field `keep`: if there was decision to keep. -/
  keep : Bool := false
  /-- Field `truthIndex`: index of the particle in the generator truth record. -/
  truthIndex : GeneratedParticleIndex_t := NoGeneratedParticleIndex
deriving DecidableEq

namespace ParticleInfo_t

/-- Member `clear()`: assigns the three fields in turn. -/
def clear (self : ParticleInfo_t) : ParticleInfo_t :=
  { self with particle := none, keep := false, truthIndex := NoGeneratedParticleIndex }

/-- Member `hasParticle()`: `return particle;` (pointer to `bool`). -/
def hasParticle (self : ParticleInfo_t) : Bool :=
  self.particle.isSome

/-- Member `isPrimary()`: `return simb::isGeneratedParticleIndex(truthIndex);`. -/
def isPrimary (self : ParticleInfo_t) : Bool :=
  isGeneratedParticleIndex self.truthIndex

/-- Member `keepParticle()`: `return hasParticle() && keep;`. -/
def keepParticle (self : ParticleInfo_t) : Bool :=
  self.hasParticle && self.keep

/-- Member `truthInfoIndex()`: `return truthIndex;`. -/
def truthInfoIndex (self : ParticleInfo_t) : GeneratedParticleIndex_t :=
  self.truthIndex

end ParticleInfo_t

/-! ## The service state (header lines 143-167) -/

/-- Data members of `ParticleListActionService`.  The two `static` members are
carried in the same record. -/
structure ParticleListActionService where
  /-- The minimum energy for a particle to be included in the list. -/
  fenergyCut : Int
  /-- Information about the particle currently being simulated. -/
  fCurrentParticle : ParticleInfo_t
  /-- The accumulated particles of the event, in order of insertion. -/
  fparticleList : List MCParticle
  /-- Whether to store particle trajectories with each particle. -/
  fstoreTrajectories : Bool
  /-- Key is current track ID, value is parent ID. -/
  fParentIDMap : List (Int × Int)
  /-- Track ID of the current particle (`static`). -/
  fCurrentTrackID : Int
  /-- Offset added to track ids when running over several records (`static`). -/
  fTrackIDOffset : Int
  /-- Whether to keep EM shower secondaries, tertiaries, etc. -/
  fKeepEMShowerDaughters : Bool
  /-- Filter for particles to be kept; `none` when no filter is installed. -/
  fFilter : Option PositionInVolumeFilter
  /-- Map: particle track ID to index of primary information in MC truth. -/
  fPrimaryTruthMap : List (Int × GeneratedParticleIndex_t)
  /-- Handle of the current Art event, `none` for a null pointer. -/
  currentArtEvent_ : Option Nat
  /-- Output particle collection handed to the framework. -/
  partCol_ : Option (List MCParticle)
  /-- Output truth-to-particle associations handed to the framework. -/
  tpassn_ : Option (List (Nat × Nat))
  /-- Product identifier. -/
  pid_ : Nat

namespace ParticleListActionService

/-- Member `ParticleFilter(filter)`: `fFilter = std::move(filter);`. -/
def ParticleFilter (self : ParticleListActionService)
    (filter : Option PositionInVolumeFilter) : ParticleListActionService :=
  { self with fFilter := filter }

/-- Member `GetCurrentTrackID()`: `return fCurrentTrackID;`. -/
def GetCurrentTrackID (self : ParticleListActionService) : Int :=
  self.fCurrentTrackID

/-- Member `ResetTrackIDOffset()`: `fTrackIDOffset = 0;`. -/
def ResetTrackIDOffset (self : ParticleListActionService) : ParticleListActionService :=
  { self with fTrackIDOffset := 0 }

/-- Member `GetPrimaryTruthMap()`: `return fPrimaryTruthMap;`. -/
def GetPrimaryTruthMap (self : ParticleListActionService) :
    List (Int × GeneratedParticleIndex_t) :=
  self.fPrimaryTruthMap

end ParticleListActionService

/-! ## Track Parentage Map -/

/-- Modelled from the spec: the error taxonomy of the engine; the header
declares no error type. -/
inductive EngineError where
  | DuplicateTrackError
  | ReentrantTrackError
  | NoActiveTrackError
deriving DecidableEq

/-- Modelled from the spec: the body of the map query is not in the header.
`parentOf(id) -> parentId or NotFound`; `none` is `NotFound`. -/
def parentOf (parents : List (Int × Int)) (id : Int) : Option Int :=
  parents.lookup id

/-- Whether a track identifier is a key of the Track Parentage Map. -/
def isRegistered (parents : List (Int × Int)) (id : Int) : Bool :=
  (parentOf parents id).isSome

/-- Modelled from the spec: the code filling `fParentIDMap` is not in the header.
`recordParent(childId, parentId)` inserts unconditionally, except that a
`childId` that already exists fails with `DuplicateTrackError`. -/
def recordParent (parents : List (Int × Int)) (childId parentId : Int) :
    Except EngineError (List (Int × Int)) :=
  if isRegistered parents childId then .error .DuplicateTrackError
  else .ok ((childId, parentId) :: parents)

/-- The data-model invariant of the Track Parentage Map, read off the list of
entries (last registered first): no identifier is registered twice, and the
parent of every entry is 0 (a primary) or was registered before the entry. -/
def RegisteredInOrder : List (Int × Int) → Bool
  | [] => true
  | (child, parent) :: earlier =>
    !isRegistered earlier child
      && (parent == 0 || isRegistered earlier parent)
      && RegisteredInOrder earlier

/-- A registered track is a primary when its recorded parent is 0. -/
def isPrimaryTrack (parents : List (Int × Int)) (id : Int) : Bool :=
  parentOf parents id == some 0

/-- The `n`-th ancestor of a track: `n` applications of `parentOf`. -/
def nthAncestor (parents : List (Int × Int)) : Nat → Int → Option Int
  | 0, id => some id
  | n + 1, id =>
    match parentOf parents id with
    | none => none
    | some parent => nthAncestor parents n parent

/-- Modelled from the spec: the body of `GetParentage` is not in the header.
The loop of the ancestor walk, with an iteration budget: each iteration looks
the current track up once; the walk stops at the current track when it is not
in the map, is a primary (parent 0) or is already kept, and otherwise moves to
its parent.  The result is the stopping track with the number of map lookups
made; `none` means the budget ran out before the walk stopped. -/
def ancestorWalk (parents : List (Int × Int)) (kept : Int → Bool) :
    Nat → Int → Option (Int × Nat)
  | 0, _ => none
  | fuel + 1, cur =>
    match parentOf parents cur with
    | none => some (cur, 1)
    | some parent =>
      if parent == 0 || kept cur then some (cur, 1)
      else (ancestorWalk parents kept fuel parent).map (fun r => (r.1, r.2 + 1))

namespace ParticleListActionService

/-- Modelled from the spec: the retention policy is evaluated in the tracking
hooks, whose bodies are not in the header.  `shouldKeep(particle, filter)`:
initial energy at least the cutoff, OR flagged EM-shower daughter with
`keepEMShowerDaughters` configured, OR the optional spatial filter (if present)
reports that the trajectory meets the volume of interest. -/
def shouldKeep (self : ParticleListActionService) (particle : MCParticle) : Bool :=
  decide (self.fenergyCut ≤ particle.initialEnergy)
    || (particle.emShowerDaughter && self.fKeepEMShowerDaughters)
    || (match self.fFilter with
        | none => false
        | some filter => particle.trajectory.any (fun pt => filter pt.position))

/-- Modelled from the spec: `sim::ParticleList::KnownParticle` is not among the
sources.  A track is already known to be kept when a particle with its
identifier has been committed to the output list. -/
def KnownParticle (self : ParticleListActionService) (trackId : Int) : Bool :=
  self.fparticleList.any (fun p => p.trackId == trackId)

/-- Modelled from the spec: `GetParentage` is only declared in the header.
Walk the Track Parentage Map from `trackid` upward until reaching either a
primary or a track already known to be kept, as a loop bounded by the number
of tracks of the event. -/
def GetParentage (self : ParticleListActionService) (trackid : Int) : Option Int :=
  (ancestorWalk self.fParentIDMap self.KnownParticle
    self.fParentIDMap.length trackid).map Prod.fst

/-- Modelled from the spec: `postUserTrackingAction` is only declared in the
header.  Engine signal "track ends": with nothing active,
`NoActiveTrackError`; otherwise evaluate the retention policy; a kept particle
has its stored parent rewritten to the ancestor found by the walk from its
recorded parent (and left as recorded if the bounded walk finds none) and is
appended to the output list; a particle that is not kept is dropped.  The
parent map is left as it is and the slot is cleared. -/
def onTrackEnd (self : ParticleListActionService) :
    Except EngineError ParticleListActionService :=
  match self.fCurrentParticle.particle with
  | none => .error .NoActiveTrackError
  | some particle =>
    if self.shouldKeep particle then
      let committed : MCParticle :=
        match self.GetParentage particle.mother with
        | some ancestor => { particle with mother := ancestor }
        | none => particle
      .ok { self with
              fparticleList := self.fparticleList ++ [committed]
              fCurrentParticle := self.fCurrentParticle.clear }
    else
      .ok { self with fCurrentParticle := self.fCurrentParticle.clear }

/-! ## Provenance Index -/

/-- Modelled from the spec: the code filling `fPrimaryTruthMap` is not in the
header.  `recordPrimary(trackId, recordIndex)` inserts with the current
offset applied to `trackId`, keeping one entry per identifier. -/
def recordPrimary (self : ParticleListActionService) (trackId : Int)
    (recordIndex : GeneratedParticleIndex_t) : ParticleListActionService :=
  { self with
      fPrimaryTruthMap :=
        (trackId + self.fTrackIDOffset, recordIndex)
          :: self.fPrimaryTruthMap.filter (fun e => e.1 != trackId + self.fTrackIDOffset) }

/-- Modelled from the spec: the code advancing `fTrackIDOffset` is not in the
header.  `advanceOffset(primaryCount)` adds `primaryCount` to the offset. -/
def advanceOffset (self : ParticleListActionService) (primaryCount : Nat) :
    ParticleListActionService :=
  { self with fTrackIDOffset := self.fTrackIDOffset + primaryCount }

/-- Modelled from the spec: `GetPrimaryTruthIndex` is only declared in the
header (a `const` member).  `lookup(trackId) -> recordIndex or NoIndex`; the
second component is the service after the call. -/
def GetPrimaryTruthIndex (self : ParticleListActionService) (trackId : Int) :
    GeneratedParticleIndex_t × ParticleListActionService :=
  (match self.fPrimaryTruthMap.lookup trackId with
    | some index => index
    | none => NoGeneratedParticleIndex,
   self)

/-- Modelled from the spec: the code merging generator records is not in the
header.  Merging one record: every primary of the record, named by the
identifier the engine gave it, is recorded against `recordIndex`; then the
offset is advanced once by the number of primaries. -/
def mergeRecord (self : ParticleListActionService) (localIds : List Int)
    (recordIndex : GeneratedParticleIndex_t) : ParticleListActionService :=
  advanceOffset
    (localIds.foldl (fun st trackId => recordPrimary st trackId recordIndex) self)
    localIds.length

/-- Modelled from the spec: the code merging generator records is not in the
header.  Merging the records `0, 1, ..., n - 1` in turn, each with the same
engine-assigned primary identifiers. -/
def mergeRecords (self : ParticleListActionService) (localIds : List Int) :
    Nat → ParticleListActionService
  | 0 => self
  | n + 1 => mergeRecord (mergeRecords self localIds n) localIds n

end ParticleListActionService

/-- Engine-assigned identifiers of the `k` primaries of one record:
`first, first + 1, ..., first + k - 1`. -/
def primaryIds (first : Int) (k : Nat) : List Int :=
  (List.range k).map (fun (j : Nat) => first + (j : Int))

/-! ## Concrete states used to exercise the theorems -/

/-- A service with cutoff 10, no filter and nothing recorded yet. -/
def emptyService : ParticleListActionService :=
  { fenergyCut := 10, fCurrentParticle := {}, fparticleList := [],
    fstoreTrajectories := false, fParentIDMap := [], fCurrentTrackID := 0,
    fTrackIDOffset := 0, fKeepEMShowerDaughters := false, fFilter := none,
    fPrimaryTruthMap := [], currentArtEvent_ := none, partCol_ := none,
    tpassn_ := none, pid_ := 0 }

/-- A secondary of track 1 with energy 3, below the cutoff of `emptyService`. -/
def softSecondary : MCParticle :=
  { trackId := 2, mother := 1, pdgCode := 22, initialEnergy := 3,
    emShowerDaughter := false, trajectory := [] }

/-- The slot as it stands while `softSecondary`, not a primary, is tracked. -/
def secondaryInfo : ParticleInfo_t :=
  { particle := some softSecondary, keep := false,
    truthIndex := NoGeneratedParticleIndex }

/-- A service whose filter accepts exactly the positions with `x = 7`. -/
def filteredService : ParticleListActionService :=
  { emptyService with fFilter := some (fun pos => pos.x == 7) }

/-- The particle `softSecondary` with one trajectory sample at `x = 7`. -/
def crossingSecondary : MCParticle :=
  { softSecondary with
      trajectory := [{ position := ⟨7, 0, 0, 0⟩, momentum := ⟨0, 0, 1, 1⟩, process := "compt" }] }

/-- A service whose provenance index holds the primaries 1 to 4 of two records. -/
def provenanceService : ParticleListActionService :=
  { emptyService with
      fPrimaryTruthMap := [(4, 1), (3, 1), (2, 0), (1, 0)], fTrackIDOffset := 4 }

/-- Track 1, a primary energetic enough to be kept. -/
def trackA : MCParticle :=
  { trackId := 1, mother := 0, pdgCode := 13, initialEnergy := 100,
    emShowerDaughter := false, trajectory := [] }

/-- Track 4, daughter of track 3, energetic enough to be kept. -/
def trackD : MCParticle :=
  { trackId := 4, mother := 3, pdgCode := 11, initialEnergy := 50,
    emShowerDaughter := false, trajectory := [] }

/-- The chain 1, 2, 3, 4 (each the parent of the next) when track 4 ends:
track 1 has been committed, tracks 2 and 3 were dropped. -/
def chainService : ParticleListActionService :=
  { emptyService with
      fParentIDMap := [(4, 3), (3, 2), (2, 1), (1, 0)]
      fparticleList := [trackA]
      fCurrentParticle := { particle := some trackD } }

/-! ## `ParticleInfo_t` -/

/-- C5: for every `ParticleInfo_t` state, `clear()` yields the state given by
the default member initialisers (no particle, `keep = false`, sentinel index);
after it `hasParticle()`, `keepParticle()` and `isPrimary()` are all false, and
clearing twice is the same as clearing once. -/
theorem ParticleInfo_t.clear_is_default (s : ParticleInfo_t) :
    s.clear = ({} : ParticleInfo_t)
      ∧ s.clear.particle = none
      ∧ s.clear.keep = false
      ∧ s.clear.truthIndex = NoGeneratedParticleIndex
      ∧ s.clear.hasParticle = false
      ∧ s.clear.keepParticle = false
      ∧ s.clear.isPrimary = false
      ∧ s.clear.clear = s.clear := by
  refine ⟨rfl, rfl, rfl, rfl, rfl, rfl, ?_, rfl⟩
  simp [ParticleInfo_t.isPrimary, ParticleInfo_t.clear, isGeneratedParticleIndex]

/-- C6: for every `ParticleInfo_t` state, `isPrimary()` is true exactly when
the stored `truthIndex` differs from the no-index sentinel; replacing the
particle pointer and the keep flag by anything does not change the answer. -/
theorem ParticleInfo_t.isPrimary_iff_truthIndex (s : ParticleInfo_t) :
    s.isPrimary = isGeneratedParticleIndex s.truthInfoIndex
      ∧ (s.isPrimary = true ↔ s.truthInfoIndex ≠ NoGeneratedParticleIndex)
      ∧ (s.isPrimary = false ↔ s.truthInfoIndex = NoGeneratedParticleIndex)
      ∧ ∀ (particle : Option MCParticle) (keep : Bool),
          ParticleInfo_t.isPrimary { s with particle := particle, keep := keep }
            = s.isPrimary := by
  refine ⟨rfl, ?_, ?_, fun _ _ => rfl⟩ <;>
    simp [ParticleInfo_t.isPrimary, ParticleInfo_t.truthInfoIndex, isGeneratedParticleIndex]

/-- C8: for every `ParticleInfo_t` state, `keepParticle()` is true exactly when
a particle is present and the keep flag is set; with no particle it is false
whatever the flag, and it is never true without `hasParticle()`. -/
theorem ParticleInfo_t.keepParticle_iff (s : ParticleInfo_t) :
    (s.keepParticle = true ↔ s.hasParticle = true ∧ s.keep = true)
      ∧ s.keepParticle = (s.particle.isSome && s.keep)
      ∧ ParticleInfo_t.keepParticle { s with particle := none, keep := true } = false
      ∧ (s.keepParticle = true → s.hasParticle = true) := by
  refine ⟨?_, rfl, rfl, ?_⟩
  · simp [ParticleInfo_t.keepParticle]
  · intro h
    simp [ParticleInfo_t.keepParticle] at h
    exact h.1

/-- C8 at a concrete state: a kept particle in the slot. -/
theorem ParticleInfo_t.keepParticle_iff_witness :
    ParticleInfo_t.hasParticle { secondaryInfo with keep := true } = true :=
  (ParticleInfo_t.keepParticle_iff { secondaryInfo with keep := true }).2.2.2 (by decide)

/-- C9 (counterexample): while a secondary is being tracked the slot holds a
particle and the sentinel index, so `hasParticle()` is true and `isPrimary()`
is false. -/
theorem ParticleInfo_t.isPrimary_ne_hasParticle :
    secondaryInfo.hasParticle = true
      ∧ secondaryInfo.isPrimary = false
      ∧ secondaryInfo.isPrimary ≠ secondaryInfo.hasParticle := by
  decide

/-- C9 (amended): for every `ParticleInfo_t` state, `isPrimary()` reports
whether `truthIndex` is a generator-record index; it agrees with
`hasParticle()` exactly in the states where a particle is present if and only
if `truthIndex` differs from the sentinel. -/
theorem ParticleInfo_t.isPrimary_eq_hasParticle_iff (s : ParticleInfo_t) :
    s.isPrimary = isGeneratedParticleIndex s.truthIndex
      ∧ (s.isPrimary = s.hasParticle ↔
          (s.particle.isSome = true ↔ s.truthIndex ≠ NoGeneratedParticleIndex)) := by
  refine ⟨rfl, ?_⟩
  cases h : s.particle <;>
    simp [ParticleInfo_t.isPrimary, ParticleInfo_t.hasParticle, isGeneratedParticleIndex, h]

/-! ## Track-identifier offset -/

/-- C7: whatever the offset was, `ResetTrackIDOffset()` leaves it at 0 and
leaves every other data member as it was. -/
theorem ParticleListActionService.ResetTrackIDOffset_frame
    (s : ParticleListActionService) :
    s.ResetTrackIDOffset.fTrackIDOffset = 0
      ∧ s.ResetTrackIDOffset.GetCurrentTrackID = s.GetCurrentTrackID
      ∧ s.ResetTrackIDOffset.fParentIDMap = s.fParentIDMap
      ∧ s.ResetTrackIDOffset.GetPrimaryTruthMap = s.GetPrimaryTruthMap
      ∧ s.ResetTrackIDOffset.fCurrentParticle = s.fCurrentParticle
      ∧ s.ResetTrackIDOffset.fenergyCut = s.fenergyCut
      ∧ s.ResetTrackIDOffset.fstoreTrajectories = s.fstoreTrajectories
      ∧ s.ResetTrackIDOffset.fKeepEMShowerDaughters = s.fKeepEMShowerDaughters
      ∧ s.ResetTrackIDOffset.fFilter = s.fFilter
      ∧ s.ResetTrackIDOffset.fparticleList = s.fparticleList
      ∧ s.ResetTrackIDOffset.currentArtEvent_ = s.currentArtEvent_
      ∧ s.ResetTrackIDOffset.partCol_ = s.partCol_
      ∧ s.ResetTrackIDOffset.tpassn_ = s.tpassn_
      ∧ s.ResetTrackIDOffset.pid_ = s.pid_ :=
  ⟨rfl, rfl, rfl, rfl, rfl, rfl, rfl, rfl, rfl, rfl, rfl, rfl, rfl, rfl⟩

/-! ## Retention policy -/

/-- C2: for every particle and configuration the keep decision is true exactly
when the initial energy reaches the cutoff, or the particle is flagged as an
EM-shower daughter and `keepEMShowerDaughters` is configured, or a filter is
installed and accepts some trajectory point; with no filter installed only the
first two clauses count, so a below-cutoff particle without the EM-shower flag
is not kept. -/
theorem ParticleListActionService.shouldKeep_iff
    (s : ParticleListActionService) (p : MCParticle) :
    (s.shouldKeep p = true ↔
        s.fenergyCut ≤ p.initialEnergy
          ∨ (p.emShowerDaughter = true ∧ s.fKeepEMShowerDaughters = true)
          ∨ ∃ filter, s.fFilter = some filter
              ∧ ∃ pt, pt ∈ p.trajectory ∧ filter pt.position = true)
      ∧ (s.fFilter = none →
          (s.shouldKeep p = true ↔
            s.fenergyCut ≤ p.initialEnergy
              ∨ (p.emShowerDaughter = true ∧ s.fKeepEMShowerDaughters = true)))
      ∧ (s.fFilter = none → p.initialEnergy < s.fenergyCut →
          p.emShowerDaughter = false → s.shouldKeep p = false) := by
  refine ⟨?_, ?_, ?_⟩
  · cases hf : s.fFilter <;>
      simp [ParticleListActionService.shouldKeep, hf, or_assoc]
  · intro hf
    simp [ParticleListActionService.shouldKeep, hf]
  · intro hf hlow hem
    simp [ParticleListActionService.shouldKeep, hf, hem, hlow]

/-- C2 at concrete inputs: the soft secondary is dropped without a filter and
kept once an installed filter accepts one of its trajectory points. -/
theorem ParticleListActionService.shouldKeep_iff_witness :
    emptyService.shouldKeep softSecondary = false
      ∧ filteredService.shouldKeep crossingSecondary = true :=
  ⟨(ParticleListActionService.shouldKeep_iff emptyService softSecondary).2.2
      rfl (by decide) rfl,
   (ParticleListActionService.shouldKeep_iff filteredService crossingSecondary).1.2
      (Or.inr (Or.inr ⟨_, rfl, _, List.mem_singleton.2 rfl, by decide⟩))⟩

/-! ## Provenance lookup -/

/-- In an association list without repeated keys, looking a key up returns the
value of the entry that carries it. -/
theorem lookup_of_mem_of_nodup {V : Type} (m : List (Int × V)) (k : Int) (v : V)
    (hkeys : (m.map Prod.fst).Nodup) (hmem : (k, v) ∈ m) : m.lookup k = some v := by
  induction m with
  | nil => simp at hmem
  | cons e rest ih =>
    obtain ⟨a, b⟩ := e
    simp only [List.map_cons, List.nodup_cons] at hkeys
    rcases List.mem_cons.1 hmem with h | h
    · cases h
      simp [List.lookup]
    · have hne : k ≠ a := by
        intro hka
        exact hkeys.1 (hka ▸ List.mem_map_of_mem Prod.fst h)
      have hbeq : (k == a) = false := by simpa using hne
      simp [List.lookup, hbeq, ih hkeys.2 h]

/-- Looking up a key that no entry carries finds nothing. -/
theorem lookup_of_not_mem {V : Type} (m : List (Int × V)) (k : Int)
    (hnone : ∀ v, (k, v) ∉ m) : m.lookup k = none := by
  induction m with
  | nil => rfl
  | cons e rest ih =>
    obtain ⟨a, b⟩ := e
    have hne : k ≠ a := by
      intro hka
      exact hnone b (hka ▸ List.mem_cons_self _ _)
    have hbeq : (k == a) = false := by simpa using hne
    simp only [List.lookup, hbeq]
    exact ih (fun v hv => hnone v (List.mem_cons_of_mem _ hv))

/-- C3: for every track identifier, `GetPrimaryTruthIndex` returns the index
stored for it in the primary truth map (keys being unique, as in a
`std::map`) when an entry exists, returns the no-index sentinel when none
exists, and in both cases leaves the service, its map included, as it was. -/
theorem ParticleListActionService.GetPrimaryTruthIndex_spec
    (s : ParticleListActionService) (trackId : Int)
    (hkeys : (s.GetPrimaryTruthMap.map Prod.fst).Nodup) :
    (∀ index, (trackId, index) ∈ s.GetPrimaryTruthMap →
        (s.GetPrimaryTruthIndex trackId).1 = index)
      ∧ ((∀ index, (trackId, index) ∉ s.GetPrimaryTruthMap) →
          (s.GetPrimaryTruthIndex trackId).1 = NoGeneratedParticleIndex)
      ∧ (s.GetPrimaryTruthIndex trackId).2 = s
      ∧ (s.GetPrimaryTruthIndex trackId).2.GetPrimaryTruthMap = s.GetPrimaryTruthMap := by
  refine ⟨?_, ?_, rfl, rfl⟩
  · intro index hmem
    have h := lookup_of_mem_of_nodup s.fPrimaryTruthMap trackId index hkeys hmem
    simp [ParticleListActionService.GetPrimaryTruthIndex, h]
  · intro hnone
    have h := lookup_of_not_mem s.fPrimaryTruthMap trackId hnone
    simp [ParticleListActionService.GetPrimaryTruthIndex, h]

/-- C3 at concrete inputs: identifier 3 was recorded for record 1, identifier 9
was never recorded. -/
theorem ParticleListActionService.GetPrimaryTruthIndex_spec_witness :
    (provenanceService.GetPrimaryTruthIndex 3).1 = 1
      ∧ (provenanceService.GetPrimaryTruthIndex 9).1 = NoGeneratedParticleIndex :=
  ⟨(ParticleListActionService.GetPrimaryTruthIndex_spec provenanceService 3
      (by decide)).1 1 (by decide),
   (ParticleListActionService.GetPrimaryTruthIndex_spec provenanceService 9
      (by decide)).2.1 (fun index h => by
        simp [provenanceService, emptyService,
          ParticleListActionService.GetPrimaryTruthMap] at h)⟩

open ParticleListActionService

/-- A successful lookup returns the value of an entry of the list. -/
theorem mem_of_lookup_eq_some {V : Type} (m : List (Int × V)) (k : Int) (v : V)
    (h : m.lookup k = some v) : (k, v) ∈ m := by
  induction m with
  | nil => simp [List.lookup] at h
  | cons e rest ih =>
    obtain ⟨a, b⟩ := e
    by_cases hka : k = a
    · subst hka
      simp [List.lookup] at h
      simp [h]
    · have hbeq : (k == a) = false := by simpa using hka
      simp only [List.lookup, hbeq] at h
      exact List.mem_cons_of_mem _ (ih h)

/-- Lookup after the entries with key `k` have been removed. -/
theorem lookup_filter_ne {V : Type} (m : List (Int × V)) (k key : Int) :
    (m.filter (fun e => e.1 != k)).lookup key
      = if key = k then none else m.lookup key := by
  induction m with
  | nil => simp [List.lookup]
  | cons e rest ih =>
    obtain ⟨a, b⟩ := e
    by_cases hkey : key = k
    · rw [if_pos hkey] at ih ⊢
      by_cases hak : a = k
      · have hne : (a != k) = false := by simpa using hak
        simpa [List.filter, hne] using ih
      · have hne : (a != k) = true := by simpa using hak
        have hbeq : (key == a) = false := by
          simpa using (fun h : key = a => hak (h ▸ hkey))
        simpa [List.filter, hne, List.lookup, hbeq] using ih
    · rw [if_neg hkey] at ih ⊢
      by_cases hak : a = k
      · have hne : (a != k) = false := by simpa using hak
        have hbeq : (key == a) = false := by
          simpa using (fun h : key = a => hkey (h.trans hak))
        simpa [List.filter, hne, List.lookup, hbeq] using ih
      · have hne : (a != k) = true := by simpa using hak
        cases hbeq : key == a <;> simp [List.filter, hne, List.lookup, hbeq, ih]

/-- Lookup in the provenance index after one `recordPrimary`. -/
theorem recordPrimary_lookup (s : ParticleListActionService) (trackId : Int)
    (r : GeneratedParticleIndex_t) (key : Int) :
    (s.recordPrimary trackId r).fPrimaryTruthMap.lookup key
      = if key = trackId + s.fTrackIDOffset then some r
        else s.fPrimaryTruthMap.lookup key := by
  by_cases hkey : key = trackId + s.fTrackIDOffset
  · simp [recordPrimary, List.lookup, hkey]
  · have hbeq : (key == trackId + s.fTrackIDOffset) = false := by simpa using hkey
    simp [recordPrimary, List.lookup, hbeq, lookup_filter_ne, hkey]

/-- Recording the primaries of one record leaves the offset alone and maps
exactly their offset identifiers to the record. -/
theorem foldl_recordPrimary (ids : List Int) (r : GeneratedParticleIndex_t) :
    ∀ (s : ParticleListActionService) (key : Int),
      (ids.foldl (fun st trackId => recordPrimary st trackId r) s).fTrackIDOffset
          = s.fTrackIDOffset
        ∧ (ids.foldl (fun st trackId => recordPrimary st trackId r) s).fPrimaryTruthMap.lookup key
          = if key - s.fTrackIDOffset ∈ ids then some r
            else s.fPrimaryTruthMap.lookup key := by
  induction ids with
  | nil => intro s key; simp
  | cons id rest ih =>
    intro s key
    have hoff : (s.recordPrimary id r).fTrackIDOffset = s.fTrackIDOffset := rfl
    obtain ⟨h1, h2⟩ := ih (s.recordPrimary id r) key
    refine ⟨by simpa [hoff] using h1, ?_⟩
    simp only [List.foldl_cons, h2, hoff, recordPrimary_lookup, List.mem_cons]
    by_cases hrest : key - s.fTrackIDOffset ∈ rest
    · simp [hrest]
    · by_cases hid : key = id + s.fTrackIDOffset
      · have : key - s.fTrackIDOffset = id := by omega
        simp [hrest, hid]
      · have : ¬ key - s.fTrackIDOffset = id := by omega
        simp [hrest, hid, this]

/-- The engine-assigned identifiers form the window from `first` of width `k`. -/
theorem mem_primaryIds (first : Int) (k : Nat) (x : Int) :
    x ∈ primaryIds first k ↔ first ≤ x ∧ x < first + k := by
  simp only [primaryIds, List.mem_map, List.mem_range]
  constructor
  · rintro ⟨j, hj, rfl⟩
    omega
  · rintro ⟨h1, h2⟩
    refine ⟨(x - first).toNat, ?_, ?_⟩ <;> omega

/-- A record with `k` primaries has `k` engine-assigned identifiers. -/
theorem length_primaryIds (first : Int) (k : Nat) : (primaryIds first k).length = k := by
  simp [primaryIds]

/-- After `n` records the offset has advanced `n` times by the primary count. -/
theorem mergeRecords_offset (s : ParticleListActionService) (ids : List Int) (n : Nat) :
    (s.mergeRecords ids n).fTrackIDOffset = s.fTrackIDOffset + (n : Int) * ids.length := by
  induction n with
  | zero => simp [mergeRecords]
  | succ n ih =>
    simp only [mergeRecords, mergeRecord, advanceOffset, (foldl_recordPrimary ids n _ 0).1, ih]
    push_cast
    ring

/-- After `N` records merged from a reset offset, the identifier
`r * k + (first + i)` is mapped to record `r`. -/
theorem mergeRecords_lookup (s : ParticleListActionService) (first : Int) (k : Nat) :
    ∀ (N r i : Nat), r < N → i < k →
      (s.ResetTrackIDOffset.mergeRecords (primaryIds first k) N).fPrimaryTruthMap.lookup
          ((r : Int) * k + (first + i)) = some r := by
  intro N
  induction N with
  | zero => intro r i hr; omega
  | succ N ih =>
    intro r i hr hi
    have hoff := mergeRecords_offset s.ResetTrackIDOffset (primaryIds first k) N
    simp only [length_primaryIds] at hoff
    have hoff0 : s.ResetTrackIDOffset.fTrackIDOffset = 0 := rfl
    rw [hoff0] at hoff
    simp only [mergeRecords, mergeRecord, advanceOffset,
      (foldl_recordPrimary (primaryIds first k) N _ _).2, hoff, mem_primaryIds]
    by_cases hrN : r = N
    · subst hrN
      have : first ≤ (r : Int) * k + (first + i) - (0 + (r : Int) * k)
          ∧ (r : Int) * k + (first + i) - (0 + (r : Int) * k) < first + k := by
        constructor <;> omega
      rw [if_pos this]
    · have hlt : r < N := by omega
      have hmul : (r + 1) * k ≤ N * k := Nat.mul_le_mul_right k hlt
      have hmulz : ((r : Int) + 1) * k ≤ (N : Int) * k := by exact_mod_cast hmul
      have hexp : ((r : Int) + 1) * k = (r : Int) * k + k := by ring
      have : ¬ (first ≤ (r : Int) * k + (first + i) - (0 + (N : Int) * k)
          ∧ (r : Int) * k + (first + i) - (0 + (N : Int) * k) < first + k) := by
        intro h
        omega
      simp only [this, if_false]
      exact ih r i hlt hi

/-- C4: starting from a reset offset, after merging `N` generator records that
each contribute the `k` primaries with engine-assigned identifiers
`first, ..., first + k - 1` (offset advanced by `k` once per record), the
offset in force for record `r` is `r * k`, so its primary with identifier
`first + i` is registered under `r * k + (first + i)`; that entry is in the
final map, looking the identifier up returns exactly `r`, and no primary of
another record is registered under the same identifier.  With `first = 0`
the identifier is `r * k + i`. -/
theorem ParticleListActionService.provenance_round_trip
    (s : ParticleListActionService) (first : Int) (N k r i : Nat)
    (hr : r < N) (hi : i < k) :
    (s.ResetTrackIDOffset.mergeRecords (primaryIds first k) r).fTrackIDOffset = (r : Int) * k
      ∧ (((r : Int) * k + (first + i), r) ∈
          (s.ResetTrackIDOffset.mergeRecords (primaryIds first k) N).GetPrimaryTruthMap)
      ∧ ((s.ResetTrackIDOffset.mergeRecords (primaryIds first k) N).GetPrimaryTruthIndex
          ((r : Int) * k + (first + i))).1 = r
      ∧ ∀ r2 i2 : Nat, r2 < N → i2 < k → r2 ≠ r →
          (first + i2) + (s.ResetTrackIDOffset.mergeRecords (primaryIds first k) r2).fTrackIDOffset
            ≠ (first + i) + (s.ResetTrackIDOffset.mergeRecords (primaryIds first k) r).fTrackIDOffset := by
  have hoff : ∀ n : Nat,
      (s.ResetTrackIDOffset.mergeRecords (primaryIds first k) n).fTrackIDOffset = (n : Int) * k := by
    intro n
    have h := mergeRecords_offset s.ResetTrackIDOffset (primaryIds first k) n
    have h0 : s.ResetTrackIDOffset.fTrackIDOffset = 0 := rfl
    simpa [length_primaryIds, h0] using h
  have hlook := mergeRecords_lookup s first k N r i hr hi
  refine ⟨hoff r, mem_of_lookup_eq_some _ _ _ hlook, ?_, ?_⟩
  · simp [ParticleListActionService.GetPrimaryTruthIndex, hlook]
  · intro r2 i2 _ hi2 hne
    rw [hoff r2, hoff r]
    rcases Nat.lt_or_gt_of_ne hne with hlt | hgt
    · have hmul : (r2 + 1) * k ≤ r * k := Nat.mul_le_mul_right k hlt
      have hmulz : ((r2 : Int) + 1) * k ≤ (r : Int) * k := by exact_mod_cast hmul
      have hexp : ((r2 : Int) + 1) * k = (r2 : Int) * k + k := by ring
      omega
    · have hmul : (r + 1) * k ≤ r2 * k := Nat.mul_le_mul_right k hgt
      have hmulz : ((r : Int) + 1) * k ≤ (r2 : Int) * k := by exact_mod_cast hmul
      have hexp : ((r : Int) + 1) * k = (r : Int) * k + k := by ring
      omega

/-- C4 at concrete inputs: two records of three primaries numbered from 1;
the first primary of record 1 is found under identifier 4. -/
theorem ParticleListActionService.provenance_round_trip_witness :
    ((emptyService.ResetTrackIDOffset.mergeRecords (primaryIds 1 3) 2).GetPrimaryTruthIndex
        4).1 = 1 :=
  (ParticleListActionService.provenance_round_trip emptyService 1 2 3 1 0
    (by decide) (by decide)).2.2.1

/-! ## Ancestor walk -/

/-- Lookup of a parent in a map with one more entry. -/
theorem parentOf_cons (c p : Int) (m : List (Int × Int)) (id : Int) :
    parentOf ((c, p) :: m) id = if id = c then some p else parentOf m id := by
  by_cases h : id = c
  · simp [parentOf, List.lookup, h]
  · have hbeq : (id == c) = false := by simpa using h
    simp [parentOf, List.lookup, hbeq, h]

/-- The ordering invariant of a map with one more entry, spelled out. -/
theorem registeredInOrder_cons (c p : Int) (m : List (Int × Int)) :
    RegisteredInOrder ((c, p) :: m) = true ↔
      isRegistered m c = false ∧ (p = 0 ∨ isRegistered m p = true)
        ∧ RegisteredInOrder m = true := by
  simp [RegisteredInOrder, and_assoc]

/-- In a map registered in order, the recorded parent of a registered track is
0 or is itself registered. -/
theorem parent_registered (m : List (Int × Int)) (hord : RegisteredInOrder m = true) :
    ∀ id p, parentOf m id = some p → p = 0 ∨ isRegistered m p = true := by
  induction m with
  | nil => intro id p h; simp [parentOf, List.lookup] at h
  | cons e rest ih =>
    obtain ⟨c, q⟩ := e
    obtain ⟨hc, hq, hrest⟩ := (registeredInOrder_cons c q rest).1 hord
    have lift : ∀ x, isRegistered rest x = true → isRegistered ((c, q) :: rest) x = true := by
      intro x hx
      unfold isRegistered at hx ⊢
      rw [parentOf_cons]
      split <;> simp [hx]
    intro t p h
    rw [parentOf_cons] at h
    split at h
    · cases h
      exact hq.imp (fun h0 => h0) (lift _)
    · exact (ih hrest t p h).imp (fun h0 => h0) (lift p)

/-- Entries registered later do not change the walk from a track registered
earlier. -/
theorem ancestorWalk_cons (c q : Int) (m : List (Int × Int)) (kept : Int → Bool)
    (hord : RegisteredInOrder ((c, q) :: m) = true) :
    ∀ fuel id, isRegistered m id = true →
      ancestorWalk ((c, q) :: m) kept fuel id = ancestorWalk m kept fuel id := by
  obtain ⟨hc, _, hrest⟩ := (registeredInOrder_cons c q m).1 hord
  intro fuel
  induction fuel with
  | zero => intro id _; rfl
  | succ fuel ih =>
    intro id hid
    have hne : id ≠ c := by
      intro h
      rw [h, hc] at hid
      exact Bool.false_ne_true hid
    have hpar : parentOf ((c, q) :: m) id = parentOf m id := by
      rw [parentOf_cons, if_neg hne]
    unfold ancestorWalk
    rw [hpar]
    cases hp : parentOf m id with
    | none => rfl
    | some p =>
      simp only
      by_cases hstop : (p == 0 || kept id) = true
      · simp [hstop]
      · simp only [hstop]
        have hp0 : p ≠ 0 := by
          intro h
          simp [h] at hstop
        rcases parent_registered m hrest id p hp with h0 | hreg
        · exact absurd h0 hp0
        · rw [ih p hreg]

/-- The walk from a registered track of a map registered in order stops, with
one result for every budget that is at least the number of entries. -/
theorem ancestorWalk_stops (kept : Int → Bool) (m : List (Int × Int))
    (hord : RegisteredInOrder m = true) :
    ∀ id, isRegistered m id = true →
      ∃ a n, n ≤ m.length ∧
        ∀ fuel, m.length ≤ fuel → ancestorWalk m kept fuel id = some (a, n) := by
  induction m with
  | nil => intro id h; simp [isRegistered, parentOf, List.lookup] at h
  | cons e rest ih =>
    obtain ⟨c, q⟩ := e
    obtain ⟨hc, hq, hrest⟩ := (registeredInOrder_cons c q rest).1 hord
    intro id hid
    by_cases hidc : id = c
    · subst hidc
      by_cases hstop : (q == 0 || kept id) = true
      · refine ⟨id, 1, by simp, ?_⟩
        intro fuel hfuel
        obtain ⟨f, rfl⟩ : ∃ f, fuel = f + 1 := ⟨fuel - 1, by simp at hfuel; omega⟩
        simp [ancestorWalk, parentOf_cons, hstop]
      · have hq0 : q ≠ 0 := by
          intro h
          simp [h] at hstop
        have hqreg : isRegistered rest q = true := hq.resolve_left hq0
        obtain ⟨a, n, hn, hwalk⟩ := ih hrest q hqreg
        refine ⟨a, n + 1, by simp; omega, ?_⟩
        intro fuel hfuel
        obtain ⟨f, rfl⟩ : ∃ f, fuel = f + 1 := ⟨fuel - 1, by simp at hfuel; omega⟩
        have hf : rest.length ≤ f := by simp at hfuel; omega
        unfold ancestorWalk
        rw [parentOf_cons, if_pos rfl]
        simp only [hstop]
        rw [ancestorWalk_cons id q rest kept hord f q hqreg, hwalk f hf]
        rfl
    · have hidreg : isRegistered rest id = true := by
        unfold isRegistered at hid ⊢
        rw [parentOf_cons, if_neg hidc] at hid
        exact hid
      obtain ⟨a, n, hn, hwalk⟩ := ih hrest id hidreg
      refine ⟨a, n, by simp; omega, ?_⟩
      intro fuel hfuel
      rw [ancestorWalk_cons c q rest kept hord fuel id hidreg]
      exact hwalk fuel (by simp at hfuel; omega)

/-- What a finished walk has found: the stopping track is the `k`-th ancestor of
the start for `k + 1` lookups, the walk had reason to stop there, and every
nearer ancestor is registered, is no primary and is not kept. -/
theorem ancestorWalk_nearest (m : List (Int × Int)) (kept : Int → Bool) :
    ∀ fuel start a n, ancestorWalk m kept fuel start = some (a, n) →
      ∃ k, n = k + 1 ∧ nthAncestor m k start = some a
        ∧ (parentOf m a = none ∨ parentOf m a = some 0 ∨ kept a = true)
        ∧ ∀ j, j < k → ∃ x, nthAncestor m j start = some x
            ∧ isPrimaryTrack m x = false ∧ kept x = false := by
  intro fuel
  induction fuel with
  | zero => intro start a n h; simp [ancestorWalk] at h
  | succ fuel ih =>
    intro start a n h
    unfold ancestorWalk at h
    cases hp : parentOf m start with
    | none =>
      simp only [hp, Option.some.injEq, Prod.mk.injEq] at h
      obtain ⟨rfl, rfl⟩ := h
      exact ⟨0, rfl, rfl, Or.inl hp, fun j hj => absurd hj (Nat.not_lt_zero j)⟩
    | some p =>
      simp only [hp] at h
      by_cases hstop : (p == 0 || kept start) = true
      · simp only [hstop, if_true, Option.some.injEq, Prod.mk.injEq] at h
        obtain ⟨rfl, rfl⟩ := h
        refine ⟨0, rfl, rfl, ?_, fun j hj => absurd hj (Nat.not_lt_zero j)⟩
        rcases Bool.or_eq_true _ _ ▸ hstop with h0 | hk
        · exact Or.inr (Or.inl (by rw [hp, eq_of_beq h0]))
        · exact Or.inr (Or.inr hk)
      · simp only [hstop] at h
        cases hw : ancestorWalk m kept fuel p with
        | none => simp [hw] at h
        | some r =>
          obtain ⟨b, n2⟩ := r
          simp only [hw, Option.map_some, Option.some.injEq, Prod.mk.injEq] at h
          obtain ⟨rfl, rfl⟩ := h
          obtain ⟨k, hk, hanc, hsettled, hnear⟩ := ih p b n2 hw
          have hp0 : (p == 0) = false := by
            cases h0 : p == 0
            · rfl
            · simp [h0] at hstop
          have hkept : kept start = false := by
            cases hk0 : kept start
            · rfl
            · simp [hk0] at hstop
          refine ⟨k + 1, by omega, by simp [nthAncestor, hp, hanc], hsettled, ?_⟩
          intro j hj
          cases j with
          | zero =>
            refine ⟨start, rfl, ?_, hkept⟩
            have hne : p ≠ 0 := by simpa using hp0
            simp [isPrimaryTrack, hp, hne]
          | succ j =>
            obtain ⟨x, hx, hxp, hxk⟩ := hnear j (by omega)
            exact ⟨x, by simp [nthAncestor, hp, hx], hxp, hxk⟩

/-- The walk from a registered track of a map registered in order ends at a
registered track. -/
theorem ancestorWalk_registered (m : List (Int × Int)) (kept : Int → Bool)
    (hord : RegisteredInOrder m = true) :
    ∀ fuel start a n, isRegistered m start = true →
      ancestorWalk m kept fuel start = some (a, n) → isRegistered m a = true := by
  intro fuel
  induction fuel with
  | zero => intro start a n _ h; simp [ancestorWalk] at h
  | succ fuel ih =>
    intro start a n hreg h
    unfold ancestorWalk at h
    cases hp : parentOf m start with
    | none =>
      simp only [hp, Option.some.injEq, Prod.mk.injEq] at h
      rw [← h.1]
      exact hreg
    | some p =>
      simp only [hp] at h
      by_cases hstop : (p == 0 || kept start) = true
      · simp only [hstop, if_true, Option.some.injEq, Prod.mk.injEq] at h
        rw [← h.1]
        exact hreg
      · simp only [hstop] at h
        cases hw : ancestorWalk m kept fuel p with
        | none => simp [hw] at h
        | some r =>
          obtain ⟨b, n2⟩ := r
          simp [hw] at h
          have hp0 : p ≠ 0 := by
            intro h0
            simp [h0] at hstop
          rcases parent_registered m hord start p hp with h0 | hpreg
          · exact absurd h0 hp0
          · rw [← h.1]
            exact ih p b n2 hpreg hw

/-- A track that is not in the map costs the walk its one lookup. -/
theorem ancestorWalk_unregistered (m : List (Int × Int)) (kept : Int → Bool)
    (fuel : Nat) (start : Int) (hreg : isRegistered m start = false) :
    ancestorWalk m kept (fuel + 1) start = some (start, 1) := by
  have hp : parentOf m start = none := by
    unfold isRegistered at hreg
    cases h : parentOf m start with
    | none => rfl
    | some p => simp [h] at hreg
  simp [ancestorWalk, hp]

/-- In a map with a cycle, which no registration order produces, the walk
exhausts every budget. -/
theorem ancestorWalk_cycle (fuel : Nat) :
    ancestorWalk [(1, 2), (2, 1)] (fun _ => false) fuel 1 = none
      ∧ ancestorWalk [(1, 2), (2, 1)] (fun _ => false) fuel 2 = none := by
  induction fuel with
  | zero => exact ⟨rfl, rfl⟩
  | succ fuel ih =>
    constructor
    · simp [ancestorWalk, parentOf, List.lookup, ih.2]
    · simp [ancestorWalk, parentOf, List.lookup, ih.1]

/-- Recording a track whose parent is 0 or already registered keeps the map
registered in order. -/
theorem recordParent_registeredInOrder (m : List (Int × Int)) (childId parentId : Int)
    (hord : RegisteredInOrder m = true)
    (hparent : parentId = 0 ∨ isRegistered m parentId = true)
    (hnew : isRegistered m childId = false) :
    recordParent m childId parentId = .ok ((childId, parentId) :: m)
      ∧ RegisteredInOrder ((childId, parentId) :: m) = true := by
  refine ⟨by simp [recordParent, hnew], ?_⟩
  exact (registeredInOrder_cons childId parentId m).2 ⟨hnew, hparent, hord⟩

/-- Finalizing a track that the retention policy does not keep leaves the
output list as it was and clears the slot. -/
theorem ParticleListActionService.onTrackEnd_drops
    (s : ParticleListActionService) (p : MCParticle)
    (hactive : s.fCurrentParticle.particle = some p)
    (hdrop : s.shouldKeep p = false) :
    s.onTrackEnd = .ok { s with fCurrentParticle := s.fCurrentParticle.clear } := by
  simp [ParticleListActionService.onTrackEnd, hactive, hdrop]

/-- Finalizing a kept track whose recorded parent is no registered track, as
for a primary with parent 0, commits it with the parent it had. -/
theorem ParticleListActionService.onTrackEnd_unregistered_parent
    (s : ParticleListActionService) (p : MCParticle)
    (hactive : s.fCurrentParticle.particle = some p)
    (hkeep : s.shouldKeep p = true)
    (hreg : isRegistered s.fParentIDMap p.mother = false) :
    s.onTrackEnd = .ok { s with
        fparticleList := s.fparticleList ++ [p]
        fCurrentParticle := s.fCurrentParticle.clear } := by
  cases hlen : s.fParentIDMap.length with
  | zero =>
    simp [ParticleListActionService.onTrackEnd, hactive, hkeep,
      ParticleListActionService.GetParentage, hlen, ancestorWalk]
  | succ f =>
    simp [ParticleListActionService.onTrackEnd, hactive, hkeep,
      ParticleListActionService.GetParentage, hlen,
      ancestorWalk_unregistered _ _ f p.mother hreg]

/-- Recording a primary keeps the keys of the provenance index distinct. -/
theorem recordPrimary_keys_nodup (s : ParticleListActionService) (trackId : Int)
    (r : GeneratedParticleIndex_t)
    (hkeys : (s.GetPrimaryTruthMap.map Prod.fst).Nodup) :
    ((s.recordPrimary trackId r).GetPrimaryTruthMap.map Prod.fst).Nodup := by
  simp only [GetPrimaryTruthMap, recordPrimary, List.map_cons, List.nodup_cons]
  constructor
  · intro hmem
    obtain ⟨e, he, hfst⟩ := List.mem_map.1 hmem
    have := (List.mem_filter.1 he).2
    simp [hfst] at this
  · exact hkeys.sublist ((List.filter_sublist _).map Prod.fst)

/-- C1: in a parent map in which every track's parent is 0 or was registered
before the track, finalizing a kept track whose recorded parent is a
registered track commits it with its parent rewritten to the result `a` of
`GetParentage` on the recorded parent: `a` is the `k`-th ancestor of the
recorded parent for some `k`, `a` is a primary or already kept, and no nearer
ancestor is a primary or kept.  In particular, when the recorded parent `C` has
parent `B`, `B` has parent `A`, `A` is kept and `B`, `C` are not, the committed
parent is `A`. -/
theorem ParticleListActionService.onTrackEnd_commits_nearest_ancestor
    (s : ParticleListActionService) (p : MCParticle)
    (hactive : s.fCurrentParticle.particle = some p)
    (hkeep : s.shouldKeep p = true)
    (hord : RegisteredInOrder s.fParentIDMap = true)
    (hreg : isRegistered s.fParentIDMap p.mother = true) :
    ∃ a k,
      s.onTrackEnd = .ok { s with
          fparticleList := s.fparticleList ++ [{ p with mother := a }]
          fCurrentParticle := s.fCurrentParticle.clear }
      ∧ s.GetParentage p.mother = some a
      ∧ nthAncestor s.fParentIDMap k p.mother = some a
      ∧ (isPrimaryTrack s.fParentIDMap a = true ∨ s.KnownParticle a = true)
      ∧ (∀ j, j < k → ∃ x, nthAncestor s.fParentIDMap j p.mother = some x
            ∧ isPrimaryTrack s.fParentIDMap x = false ∧ s.KnownParticle x = false)
      ∧ (∀ A B, parentOf s.fParentIDMap p.mother = some B →
            parentOf s.fParentIDMap B = some A → B ≠ 0 → A ≠ 0 →
            s.KnownParticle A = true → s.KnownParticle B = false →
            s.KnownParticle p.mother = false → a = A) := by
  obtain ⟨a, n, _, hwalk⟩ :=
    ancestorWalk_stops s.KnownParticle s.fParentIDMap hord p.mother hreg
  have hw := hwalk _ (Nat.le_refl _)
  have hget : s.GetParentage p.mother = some a := by
    simp [ParticleListActionService.GetParentage, hw]
  obtain ⟨k, _, hanc, hsettled, hnear⟩ :=
    ancestorWalk_nearest s.fParentIDMap s.KnownParticle _ _ _ _ hw
  have hareg := ancestorWalk_registered s.fParentIDMap s.KnownParticle hord _ _ _ _ hreg hw
  have hstop : isPrimaryTrack s.fParentIDMap a = true ∨ s.KnownParticle a = true := by
    rcases hsettled with h | h | h
    · simp [isRegistered, h] at hareg
    · exact Or.inl (by simp [isPrimaryTrack, h])
    · exact Or.inr h
  refine ⟨a, k, ?_, hget, hanc, hstop, hnear, ?_⟩
  · simp [ParticleListActionService.onTrackEnd, hactive, hkeep, hget]
  · intro A B hC hB hB0 hA0 hkA hkB hkC
    have hprimC : isPrimaryTrack s.fParentIDMap p.mother = false := by
      simp [isPrimaryTrack, hC, hB0]
    have hprimB : isPrimaryTrack s.fParentIDMap B = false := by
      simp [isPrimaryTrack, hB, hA0]
    match k, hanc, hnear with
    | 0, hanc, _ =>
      simp only [nthAncestor, Option.some.injEq] at hanc
      rw [← hanc, hprimC, hkC] at hstop
      simp at hstop
    | 1, hanc, _ =>
      simp only [nthAncestor, hC, Option.some.injEq] at hanc
      rw [← hanc, hprimB, hkB] at hstop
      simp at hstop
    | 2, hanc, _ =>
      simp only [nthAncestor, hC, hB, Option.some.injEq] at hanc
      exact hanc.symm
    | k + 3, _, hnear =>
      obtain ⟨x, hx, _, hxk⟩ := hnear 2 (by omega)
      simp only [nthAncestor, hC, hB, Option.some.injEq] at hx
      rw [← hx, hkA] at hxk
      simp at hxk

/-- C1 at the chain 1, 2, 3, 4 with only 1 and 4 kept: track 4 is committed
with parent 1. -/
theorem ParticleListActionService.onTrackEnd_commits_nearest_ancestor_witness :
    ∃ a k,
      chainService.onTrackEnd = .ok { chainService with
          fparticleList := chainService.fparticleList ++ [{ trackD with mother := a }]
          fCurrentParticle := chainService.fCurrentParticle.clear }
      ∧ a = 1
      ∧ nthAncestor chainService.fParentIDMap k trackD.mother = some a := by
  obtain ⟨a, k, hend, _, hanc, _, _, hchain⟩ :=
    ParticleListActionService.onTrackEnd_commits_nearest_ancestor chainService trackD
      rfl (by decide) (by decide) (by decide)
  exact ⟨a, k, hend,
    hchain 1 2 (by decide) (by decide) (by decide) (by decide) (by decide) (by decide)
      (by decide),
    hanc⟩

end larg4
